import Mathlib

/-!
Shallow embedding of the DCSO bloom filter library (file bloom.go, the
uint64 version).  Machine integers are modelled as Nat with explicit
reduction modulo 2 ^ 64 where Go arithmetic can wrap; byte strings are
lists of Nat (each byte below 256); the bit array is a list of 64-bit
words.  Go float64 values that are merely stored and compared (the field
p) are modelled by their IEEE-754 bit pattern.
-/

namespace Bloom

/-- The Go BloomFilter struct.  Field v is the bit array (64-bit words),
n the capacity, p the false-positive probability (kept as its IEEE-754
bit pattern), k the number of hash rounds, m the number of bits, N the
element count, M the number of words, Data the attached byte blob.  A Go
nil Data and an empty Data are both the empty list. -/
structure BloomFilter where
  v : List Nat
  n : Nat
  p : Nat
  k : Nat
  m : Nat
  N : Nat
  M : Nat
  Data : List Nat
deriving DecidableEq

/-- FNV-1 64-bit offset basis (Go hash/fnv, offset64). -/
def fnvOffsetBasis : Nat := 14695981039346656037

/-- FNV-1 64-bit prime (Go hash/fnv, prime64). -/
def fnvPrime : Nat := 1099511628211

/-- Go fnv.New64 / Write / Sum64: for each byte, multiply by the prime
(wrapping modulo 2 ^ 64) and xor the byte in. -/
def fnv64 (value : List Nat) : Nat :=
  value.foldl (fun h b => (h * fnvPrime % 2 ^ 64) ^^^ b) fnvOffsetBasis

/-- The loop body of BloomFilter.Fingerprint: hn = hn + hm*i (uint64,
wrapping), hm = hn, fingerprint[i] = hn % m.  The last argument counts
the remaining rounds. -/
def fingerprintLoop (m hn hm i : Nat) : Nat → List Nat
  | 0 => []
  | rounds + 1 =>
    let hn2 := (hn + hm * i) % 2 ^ 64
    hn2 % m :: fingerprintLoop m hn2 hn2 (i + 1) rounds

/-- BloomFilter.Fingerprint: the FNV-1 hash of the value seeds both
accumulators, then k rounds of the recurrence emit the positions. -/
def Fingerprint (s : BloomFilter) (value : List Nat) : List Nat :=
  let h := fnv64 value
  fingerprintLoop s.m h h 0 s.k

/-- The loop of BloomFilter.Add over the fingerprint positions: for each
position, k = pos / 64, l = pos % 64; the newValue flag is raised when
the bit was not yet set; then the bit is ored in.  Out-of-range indexing
(impossible for a well-formed filter) is modelled totally: getD returns
0 and List.set is the identity. -/
def addLoop : List Nat → List Nat → Bool → List Nat × Bool
  | v, [], newValue => (v, newValue)
  | v, pos :: rest, newValue =>
    let k := pos / 64
    let l := pos % 64
    let mask := 1 <<< l
    let newValue2 := if v.getD k 0 &&& mask == 0 then true else newValue
    addLoop (v.set k (v.getD k 0 ||| mask)) rest newValue2

/-- BloomFilter.Add: set the k fingerprint bits; increment N (a uint64,
so wrapping) when at least one bit was previously unset. -/
def Add (s : BloomFilter) (value : List Nat) : BloomFilter :=
  let fp := Fingerprint s value
  let r := addLoop s.v fp false
  { s with v := r.1, N := if r.2 then (s.N + 1) % 2 ^ 64 else s.N }

/-- BloomFilter.CheckFingerprint: true when every fingerprint position
has its bit set (the Go loop returns false at the first unset bit, which
is the same as List.all over the length-k fingerprint). -/
def CheckFingerprint (s : BloomFilter) (fp : List Nat) : Bool :=
  fp.all fun pos => !(s.v.getD (pos / 64) 0 &&& (1 <<< (pos % 64)) == 0)

/-- BloomFilter.Check: fingerprint the value and check it. -/
def Check (s : BloomFilter) (value : List Nat) : Bool :=
  CheckFingerprint s (Fingerprint s value)

/-- An IEEE-754 double is a NaN iff all exponent bits are set and the
mantissa is nonzero.  The argument is the 64-bit pattern. -/
def float64IsNaN (bits : Nat) : Bool :=
  (bits >>> 52) &&& 0x7FF == 0x7FF && !(bits &&& 0xFFFFFFFFFFFFF == 0)

/-- Go float64 equality (the comparison s.p != s2.p in Join) on bit
patterns: NaN equals nothing, +0 equals -0, otherwise bit equality. -/
def float64Eq (a b : Nat) : Bool :=
  if float64IsNaN a || float64IsNaN b then false
  else a == b || (a % 2 ^ 63 == 0 && b % 2 ^ 63 == 0)

/-- The errors BloomFilter.Join can return: a dimension mismatch (the
fmt.Errorf message names the differing field and both values, recorded
here structurally) or the count overflow. -/
inductive JoinError where
  | dimensionMismatch (field : String) (a b : Nat)
  | countOverflow
deriving DecidableEq

/-- The merge loop of Join: for i < M (the fuel argument counts the
remaining iterations), s.v[i] |= s2.v[i]. -/
def joinWordsLoop (w : List Nat) : List Nat → Nat → Nat → List Nat
  | v, _, 0 => v
  | v, i, fuel + 1 => joinWordsLoop w (v.set i (v.getD i 0 ||| w.getD i 0)) (i + 1) fuel

/-- BloomFilter.Join: five dimension checks in order (n, p, k, m, M),
each returning before any mutation; then the unconditional word-wise or
merge; then the overflow test (s.N + s2.N < s.N in uint64 arithmetic)
which returns with the bits already merged and N unchanged; otherwise N
becomes the sum.  The result pairs the updated receiver with the
returned error, if any. -/
def Join (s s2 : BloomFilter) : BloomFilter × Option JoinError :=
  if s.n ≠ s2.n then (s, some (.dimensionMismatch "n" s.n s2.n))
  else if ¬ float64Eq s.p s2.p then (s, some (.dimensionMismatch "p" s.p s2.p))
  else if s.k ≠ s2.k then (s, some (.dimensionMismatch "k" s.k s2.k))
  else if s.m ≠ s2.m then (s, some (.dimensionMismatch "m" s.m s2.m))
  else if s.M ≠ s2.M then (s, some (.dimensionMismatch "M" s.M s2.M))
  else
    let v2 := joinWordsLoop s2.v s.v 0 s.M
    if (s.N + s2.N) % 2 ^ 64 < s.N then
      ({ s with v := v2 }, some .countOverflow)
    else
      ({ s with v := v2, N := (s.N + s2.N) % 2 ^ 64 }, none)

/-- binary.LittleEndian.PutUint64: the eight bytes of x, least
significant first. -/
def putUint64LE (x : Nat) : List Nat :=
  [x % 2 ^ 8, x / 2 ^ 8 % 2 ^ 8, x / 2 ^ 16 % 2 ^ 8, x / 2 ^ 24 % 2 ^ 8,
   x / 2 ^ 32 % 2 ^ 8, x / 2 ^ 40 % 2 ^ 8, x / 2 ^ 48 % 2 ^ 8, x / 2 ^ 56 % 2 ^ 8]

/-- binary.LittleEndian.Uint64 on the first eight list entries. -/
def getUint64LE (b : List Nat) : Nat :=
  b.getD 0 0 + b.getD 1 0 * 2 ^ 8 + b.getD 2 0 * 2 ^ 16 + b.getD 3 0 * 2 ^ 24 +
  b.getD 4 0 * 2 ^ 32 + b.getD 5 0 * 2 ^ 40 + b.getD 6 0 * 2 ^ 48 + b.getD 7 0 * 2 ^ 56

/-- The byte stream of the bit-array loop of Write: the words v[i] for
i < M, each as eight little-endian bytes. -/
def writeWordsBytes (v : List Nat) : Nat → Nat → List Nat
  | _, 0 => []
  | i, fuel + 1 => putUint64LE (v.getD i 0) ++ writeWordsBytes v (i + 1) fuel

/-- The byte stream BloomFilter.Write sends to the sink: the constant 1
version word, then n, the bit pattern of p, k, m, N, the M bit-array
words, and the attached data (a nil Data writes nothing, which is the
same stream as an empty one). -/
def WriteBytes (s : BloomFilter) : List Nat :=
  putUint64LE 1 ++ putUint64LE s.n ++ putUint64LE s.p ++ putUint64LE s.k ++
  putUint64LE s.m ++ putUint64LE s.N ++ writeWordsBytes s.v 0 s.M ++ s.Data

/-- The errors BloomFilter.Read can return: an io error from the source
(io.ReadFull reporting a truncated read included) or the version-check
format error. -/
inductive ReadError where
  | ioError
  | formatError
deriving DecidableEq

/-- io.ReadFull into an 8-byte buffer: succeeds with the decoded word
and the remaining input exactly when 8 bytes are available.  On success
io.ReadFull returns n = 8, so the Go branch for n != 8 after a nil error
is unreachable and has no counterpart here. -/
def readUint64 (input : List Nat) : Option (Nat × List Nat) :=
  if 8 ≤ input.length then some (getUint64LE (input.take 8), input.drop 8) else none

/-- The word-reading loop of Read: M words, each via io.ReadFull. -/
def readWords : List Nat → Nat → Option (List Nat × List Nat)
  | input, 0 => some ([], input)
  | input, fuel + 1 => do
    let (w, rest) ← readUint64 input
    let (ws, rest2) ← readWords rest fuel
    some (w :: ws, rest2)

/-- The body of Read after the version check: the five header fields,
then M = ceil(m / 64) recomputed from m (the Go code computes
uint64(math.Ceil(float64(m) / 64.0)), which equals (m + 63) / 64
whenever float64(m) is exact, i.e. for m < 2 ^ 53; theorems about Read
carry that bound), then the M words, then ioutil.ReadAll for Data.
Every failure in this part of Read is a propagated source error. -/
def readBody (input : List Nat) : Option BloomFilter := do
  let (n, r1) ← readUint64 input
  let (p, r2) ← readUint64 r1
  let (k, r3) ← readUint64 r2
  let (m, r4) ← readUint64 r3
  let (N, r5) ← readUint64 r4
  let M := (m + 63) / 64
  let (ws, rest) ← readWords r5 M
  some ⟨ws, n, p, k, m, N, M, rest⟩

/-- BloomFilter.Read: the version word first; its low byte must be 1,
otherwise the fmt.Errorf format error; then the rest of the record. -/
def ReadFilter (input : List Nat) : Except ReadError BloomFilter :=
  match readUint64 input with
  | none => .error .ioError
  | some (flags, r1) =>
    if flags &&& 0xFF ≠ 1 then .error .formatError
    else
      match readBody r1 with
      | none => .error .ioError
      | some f => .ok f

/-- The errors BloomFilter.Write can return: the short-write errors.New
message from the word loop, or a propagated sink error. -/
inductive WriteError where
  | shortWrite
  | ioError
deriving DecidableEq

/-- The bit-array loop of Write against a sink.  The sink is modelled as
a map from the call index to the pair (bytes reported written, whether
an error was returned); call i of the loop is sink call 6 + i.  The loop
requests 8 bytes each time, returns the short-write error when fewer are
reported (checked first), then the sink error. -/
def writeWordsWithSink (resp : Nat → Nat × Bool) : Nat → Nat → Option WriteError
  | _, 0 => none
  | i, fuel + 1 =>
    let r := resp i
    if r.1 ≠ 8 then some .shortWrite
    else if r.2 then some .ioError
    else writeWordsWithSink resp (i + 1) fuel

/-- BloomFilter.Write against a fallible sink.  Sink calls 0 to 5 carry
the version word and the n, p, k, m, N header fields: the Go code
discards their results.  Calls 6 to 5 + M are the bit-array words, the
only ones whose results are inspected.  When Data is non-nil one final
call writes it, its result again discarded. -/
def WriteResult (s : BloomFilter) (resp : Nat → Nat × Bool) : Option WriteError :=
  let _ := resp 0
  let _ := resp 1
  let _ := resp 2
  let _ := resp 3
  let _ := resp 4
  let _ := resp 5
  match writeWordsWithSink resp 6 s.M with
  | some e => some e
  | none =>
    let _ := if s.Data ≠ [] then some (resp (6 + s.M)) else none
    none

/-- The slice of getD values of v at indices i, i + 1, ..., i + fuel - 1,
used to describe what the word loops of Write and Read exchange. -/
def wordsFrom (v : List Nat) : Nat → Nat → List Nat
  | _, 0 => []
  | i, fuel + 1 => v.getD i 0 :: wordsFrom v (i + 1) fuel

/-- Modelled from the words of the spec, for comparison with the
Fingerprint of the code: maintain two 64-bit accumulators initialized to
the hash; for round i from 0 to k - 1, update the first accumulator by
adding i times the second (wrapping modulo 2 ^ 64), set the second equal
to the updated first, and emit the first modulo m. -/
def specFingerprintAux (m acc1 acc2 i : Nat) : Nat → List Nat
  | 0 => []
  | rounds + 1 =>
    let acc := (acc1 + i * acc2) % 2 ^ 64
    acc % m :: specFingerprintAux m acc acc (i + 1) rounds

/-- Modelled from the words of the spec: the full k-round position
sequence for hash h and bit count m. -/
def specFingerprint (m k h : Nat) : List Nat :=
  specFingerprintAux m h h 0 k

/-- A small well-formed filter (m = 64, so M = 1) used to instantiate
theorems at concrete inputs. -/
def sampleFilter : BloomFilter := ⟨[0], 5, 0, 2, 64, 0, 1, []⟩

/-- The sample filter with a different capacity field n. -/
def sampleFilterOtherN : BloomFilter := ⟨[0], 7, 0, 2, 64, 0, 1, []⟩

/-- A small filter used to instantiate the serialization theorems. -/
def sampleFilterData : BloomFilter := ⟨[3], 2, 1, 1, 1, 1, 1, [7, 8]⟩

/-- A filter one element short of wrapping the uint64 element count. -/
def sampleFilterNearFull : BloomFilter := ⟨[1], 5, 0, 3, 64, 2 ^ 64 - 1, 1, []⟩

/-- A dimension-compatible partner for the near-full filter. -/
def sampleFilterOne : BloomFilter := ⟨[2], 5, 0, 3, 64, 1, 1, []⟩

/-- A sink that reports an error (and zero bytes written) on the very
first call, the one carrying the version word, and full success on
every later call. -/
def failFirstSink : Nat → Nat × Bool :=
  fun j => if j == 0 then (0, true) else (8, false)

/-- A sink that accepts every write in full. -/
def perfectSink : Nat → Nat × Bool :=
  fun _ => (8, false)

/-! ### Helper lemmas about lists and bits -/

theorem getD_set (v : List Nat) (i j x : Nat) :
    (v.set i x).getD j 0 = if i = j ∧ i < v.length then x else v.getD j 0 := by
  induction v generalizing i j with
  | nil => simp
  | cons a t ih =>
    cases i with
    | zero =>
      cases j with
      | zero => simp
      | succ j => simp
    | succ i =>
      cases j with
      | zero => simp
      | succ j =>
        simp only [List.set, List.getD_cons_succ, ih i j, List.length_cons]
        have hiff : (i = j ∧ i < t.length) ↔ (i + 1 = j + 1 ∧ i + 1 < t.length + 1) := by
          omega
        rw [if_congr hiff rfl rfl]

theorem set_getD_self (v : List Nat) (i : Nat) : v.set i (v.getD i 0) = v := by
  induction v generalizing i with
  | nil => simp
  | cons a t ih =>
    cases i with
    | zero => simp
    | succ i =>
      rw [List.getD_cons_succ]
      show a :: t.set i (t.getD i 0) = a :: t
      rw [ih i]

theorem getD_lt_of_forall (v : List Nat) (i c : Nat) (hc : 0 < c)
    (h : ∀ w ∈ v, w < c) : v.getD i 0 < c := by
  induction v generalizing i with
  | nil => simpa using hc
  | cons a t ih =>
    cases i with
    | zero => exact h a (by simp)
    | succ i => exact ih i fun w hw => h w (by simp [hw])

theorem mask_and_eq_zero (x l : Nat) :
    (x &&& 1 <<< l == 0) = !x.testBit l := by
  rw [Nat.shiftLeft_eq, one_mul, Nat.and_two_pow]
  cases h : x.testBit l <;> simp

theorem or_mask_of_testBit (x l : Nat) (h : x.testBit l = true) :
    x ||| 1 <<< l = x := by
  rw [Nat.shiftLeft_eq, one_mul]
  apply Nat.eq_of_testBit_eq
  intro j
  rw [Nat.testBit_or]
  rcases eq_or_ne l j with rfl | hne
  · simp [h]
  · simp [Nat.testBit_two_pow_of_ne hne]

theorem testBit_or_mask_self (x l : Nat) :
    (x ||| 1 <<< l).testBit l = true := by
  rw [Nat.shiftLeft_eq, one_mul, Nat.testBit_or, Nat.testBit_two_pow_self]
  simp

theorem testBit_or_mask_mono (x l j : Nat) (h : x.testBit j = true) :
    (x ||| 1 <<< l).testBit j = true := by
  rw [Nat.shiftLeft_eq, one_mul, Nat.testBit_or, h]
  simp

/-! ### Helper lemmas about addLoop -/

theorem addLoop_length (fp : List Nat) (v : List Nat) (b : Bool) :
    (addLoop v fp b).1.length = v.length := by
  induction fp generalizing v b with
  | nil => rfl
  | cons pos rest ih => simp [addLoop, ih]

theorem addLoop_testBit_mono (fp : List Nat) (v : List Nat) (b : Bool) (j t : Nat)
    (h : (v.getD j 0).testBit t = true) :
    ((addLoop v fp b).1.getD j 0).testBit t = true := by
  induction fp generalizing v b with
  | nil => exact h
  | cons pos rest ih =>
    simp only [addLoop]
    apply ih
    rw [getD_set]
    split
    · next hc =>
      rw [← hc.1] at h
      exact testBit_or_mask_mono _ _ _ h
    · exact h

theorem addLoop_sets_bits (fp : List Nat) (v : List Nat) (b : Bool)
    (hin : ∀ pos ∈ fp, pos / 64 < v.length) :
    ∀ pos ∈ fp, ((addLoop v fp b).1.getD (pos / 64) 0).testBit (pos % 64) = true := by
  induction fp generalizing v b with
  | nil => simp
  | cons q rest ih =>
    intro pos hpos
    rcases List.mem_cons.mp hpos with heq | hpos
    · rw [heq]
      simp only [addLoop]
      apply addLoop_testBit_mono
      rw [getD_set]
      rw [if_pos ⟨rfl, hin q (by simp)⟩]
      exact testBit_or_mask_self _ _
    · simp only [addLoop]
      apply ih
      · intro r hr
        rw [List.length_set]
        exact hin r (by simp [hr])
      · exact hpos

theorem addLoop_of_all_set (fp : List Nat) (v : List Nat) (b : Bool)
    (h : ∀ pos ∈ fp, ((v.getD (pos / 64) 0).testBit (pos % 64)) = true) :
    addLoop v fp b = (v, b) := by
  induction fp generalizing v b with
  | nil => rfl
  | cons q rest ih =>
    have hq := h q (by simp)
    simp only [addLoop, mask_and_eq_zero, hq, Bool.not_true, if_neg]
    rw [or_mask_of_testBit _ _ hq, set_getD_self]
    exact ih v b fun pos hpos => h pos (by simp [hpos])

/-! ### Helper lemmas about fingerprints -/

theorem fingerprintLoop_lt (fuel : Nat) (m hn hm i : Nat) (h1 : 1 ≤ m) :
    ∀ p ∈ fingerprintLoop m hn hm i fuel, p < m := by
  induction fuel generalizing hn hm i with
  | zero => simp [fingerprintLoop]
  | succ fuel ih =>
    intro p hp
    simp only [fingerprintLoop, List.mem_cons] at hp
    rcases hp with hp | hp
    · rw [hp]
      exact Nat.mod_lt _ h1
    · exact ih _ _ _ p hp

theorem fingerprintLoop_length (fuel : Nat) (m hn hm i : Nat) :
    (fingerprintLoop m hn hm i fuel).length = fuel := by
  induction fuel generalizing hn hm i with
  | zero => rfl
  | succ fuel ih => simp [fingerprintLoop, ih]

theorem fingerprintLoop_eq_spec (fuel : Nat) (m hn hm i : Nat) :
    fingerprintLoop m hn hm i fuel = specFingerprintAux m hn hm i fuel := by
  induction fuel generalizing hn hm i with
  | zero => rfl
  | succ fuel ih =>
    simp only [fingerprintLoop, specFingerprintAux, Nat.mul_comm]
    rw [ih]

/-! ### Helper lemmas about filters after Add -/

theorem Add_m (s : BloomFilter) (w : List Nat) : (Add s w).m = s.m := rfl

theorem Add_k (s : BloomFilter) (w : List Nat) : (Add s w).k = s.k := rfl

theorem Add_length (s : BloomFilter) (w : List Nat) :
    (Add s w).v.length = s.v.length := by
  simp [Add, addLoop_length]

theorem Fingerprint_Add (s : BloomFilter) (w value : List Nat) :
    Fingerprint (Add s w) value = Fingerprint s value := rfl

theorem CheckFingerprint_iff (s : BloomFilter) (fp : List Nat) :
    CheckFingerprint s fp = true ↔
      ∀ pos ∈ fp, ((s.v.getD (pos / 64) 0).testBit (pos % 64)) = true := by
  simp only [CheckFingerprint, List.all_eq_true, mask_and_eq_zero, Bool.not_not]

/-! ### Helper lemmas about serialization -/

theorem getUint64LE_putUint64LE (x : Nat) (hx : x < 2 ^ 64) :
    getUint64LE (putUint64LE x) = x := by
  simp only [putUint64LE, getUint64LE, List.getD_cons_zero, List.getD_cons_succ]
  omega

theorem readUint64_put (x : Nat) (rest : List Nat) (hx : x < 2 ^ 64) :
    readUint64 (putUint64LE x ++ rest) = some (x, rest) := by
  have hlen : (putUint64LE x ++ rest).length = 8 + rest.length := by
    simp [putUint64LE]
    omega
  have ht : (putUint64LE x ++ rest).take 8 = putUint64LE x := by
    have := List.take_left (putUint64LE x) rest
    simp only [putUint64LE, List.length_cons, List.length_nil] at this
    exact this
  have hd : (putUint64LE x ++ rest).drop 8 = rest := by
    have := List.drop_left (putUint64LE x) rest
    simp only [putUint64LE, List.length_cons, List.length_nil] at this
    exact this
  rw [readUint64, if_pos (by omega), ht, hd, getUint64LE_putUint64LE x hx]

theorem readWords_write (fuel : Nat) (v : List Nat) (hv : ∀ w ∈ v, w < 2 ^ 64) :
    ∀ (i : Nat) (rest : List Nat),
      readWords (writeWordsBytes v i fuel ++ rest) fuel = some (wordsFrom v i fuel, rest) := by
  induction fuel with
  | zero => intro i rest; rfl
  | succ fuel ih =>
    intro i rest
    have hw : v.getD i 0 < 2 ^ 64 := getD_lt_of_forall v i _ (by norm_num) hv
    simp only [writeWordsBytes, wordsFrom, readWords, List.append_assoc]
    rw [readUint64_put _ _ hw]
    simp only [Option.bind_eq_bind, Option.some_bind]
    rw [ih (i + 1) rest]
    rfl

theorem wordsFrom_cons (a : Nat) (v : List Nat) (fuel : Nat) :
    ∀ i, wordsFrom (a :: v) (i + 1) fuel = wordsFrom v i fuel := by
  induction fuel with
  | zero => intro i; rfl
  | succ fuel ih =>
    intro i
    simp only [wordsFrom, List.getD_cons_succ, ih (i + 1)]

theorem wordsFrom_self (v : List Nat) : wordsFrom v 0 v.length = v := by
  induction v with
  | nil => rfl
  | cons a t ih =>
    simp only [List.length_cons, wordsFrom, List.getD_cons_zero, wordsFrom_cons]
    rw [ih]

/-! ### Helper lemmas about the Join merge loop -/

theorem joinWordsLoop_cons (y a : Nat) (w : List Nat) (fuel : Nat) :
    ∀ (v : List Nat) (i : Nat),
      joinWordsLoop (y :: w) (a :: v) (i + 1) fuel = a :: joinWordsLoop w v i fuel := by
  induction fuel with
  | zero => intro v i; rfl
  | succ fuel ih =>
    intro v i
    simp only [joinWordsLoop, List.getD_cons_succ]
    show joinWordsLoop (y :: w) (a :: v.set i (v.getD i 0 ||| w.getD i 0)) (i + 2) fuel = _
    rw [ih]

theorem joinWordsLoop_eq_zipWith (v : List Nat) :
    ∀ w : List Nat, v.length = w.length →
      joinWordsLoop w v 0 v.length = List.zipWith (· ||| ·) v w := by
  induction v with
  | nil => intro w h; rfl
  | cons a t ih =>
    intro w h
    cases w with
    | nil => simp at h
    | cons y u =>
      simp only [List.length_cons, joinWordsLoop, List.getD_cons_zero]
      show joinWordsLoop (y :: u) ((a ||| y) :: t) 1 t.length = _
      rw [joinWordsLoop_cons]
      rw [ih u (by simpa using h)]
      rfl

/-! ### Helper lemmas about the Write sink loop -/

theorem writeWordsWithSink_none_iff (resp : Nat → Nat × Bool) (fuel : Nat) :
    ∀ i, writeWordsWithSink resp i fuel = none ↔
      ∀ t < fuel, (resp (i + t)).1 = 8 ∧ (resp (i + t)).2 = false := by
  induction fuel with
  | zero => intro i; simp [writeWordsWithSink]
  | succ fuel ih =>
    intro i
    simp only [writeWordsWithSink]
    by_cases h1 : (resp i).1 = 8
    · by_cases h2 : (resp i).2 = true
      · rw [if_neg (by simp [h1]), if_pos h2]
        constructor
        · intro h; exact absurd h (by simp)
        · intro h
          have := (h 0 (Nat.succ_pos fuel)).2
          rw [Nat.add_zero] at this
          rw [h2] at this
          exact absurd this (by simp)
      · rw [if_neg (by simp [h1]), if_neg h2]
        rw [ih (i + 1)]
        constructor
        · intro h t ht
          cases t with
          | zero => exact ⟨by simpa using h1, by simpa using (Bool.not_eq_true _).mp h2⟩
          | succ t =>
            have := h t (by omega)
            constructor
            · have h3 := this.1
              rw [show i + 1 + t = i + (t + 1) by omega] at h3
              exact h3
            · have h3 := this.2
              rw [show i + 1 + t = i + (t + 1) by omega] at h3
              exact h3
        · intro h t ht
          have := h (t + 1) (by omega)
          constructor
          · have h3 := this.1
            rw [show i + (t + 1) = i + 1 + t by omega] at h3
            exact h3
          · have h3 := this.2
            rw [show i + (t + 1) = i + 1 + t by omega] at h3
            exact h3
    · rw [if_pos h1]
      constructor
      · intro h; exact absurd h (by simp)
      · intro h
        have := (h 0 (Nat.succ_pos fuel)).1
        rw [Nat.add_zero] at this
        exact absurd this h1

/-! ### Bit coverage: the bits a fingerprint needs -/

/-- Every position of fp has its bit set in the word list base. -/
def bitsCover (base fp : List Nat) : Prop :=
  ∀ p ∈ fp, ((base.getD (p / 64) 0).testBit (p % 64)) = true

theorem Add_preserves_cover (t : BloomFilter) (w : List Nat) (fp : List Nat)
    (h : bitsCover t.v fp) : bitsCover (Add t w).v fp := by
  intro p hp
  show (((addLoop t.v (Fingerprint t w) false).1).getD (p / 64) 0).testBit (p % 64) = true
  exact addLoop_testBit_mono _ _ _ _ _ (h p hp)

theorem Add_covers (t : BloomFilter) (w : List Nat)
    (hin : ∀ p ∈ Fingerprint t w, p / 64 < t.v.length) :
    bitsCover (Add t w).v (Fingerprint t w) := by
  intro p hp
  show (((addLoop t.v (Fingerprint t w) false).1).getD (p / 64) 0).testBit (p % 64) = true
  exact addLoop_sets_bits _ _ _ hin p hp

theorem foldl_Add_m (ws : List (List Nat)) :
    ∀ t : BloomFilter, (ws.foldl Add t).m = t.m := by
  induction ws with
  | nil => intro t; rfl
  | cons w rest ih => intro t; exact (ih (Add t w)).trans (Add_m t w)

theorem foldl_Add_k (ws : List (List Nat)) :
    ∀ t : BloomFilter, (ws.foldl Add t).k = t.k := by
  induction ws with
  | nil => intro t; rfl
  | cons w rest ih => intro t; exact (ih (Add t w)).trans (Add_k t w)

theorem foldl_Add_cover (ws : List (List Nat)) (fp : List Nat) :
    ∀ t : BloomFilter, bitsCover t.v fp → bitsCover (ws.foldl Add t).v fp := by
  induction ws with
  | nil => intro t h; exact h
  | cons w rest ih => intro t h; exact ih (Add t w) (Add_preserves_cover t w fp h)

theorem Fingerprint_eq_of_dims (t s : BloomFilter) (value : List Nat)
    (hm : t.m = s.m) (hk : t.k = s.k) :
    Fingerprint t value = Fingerprint s value := by
  unfold Fingerprint
  rw [hm, hk]

theorem Check_of_cover (t : BloomFilter) (value : List Nat)
    (h : bitsCover t.v (Fingerprint t value)) : Check t value = true := by
  rw [Check]
  exact (CheckFingerprint_iff t _).mpr h

theorem Fingerprint_div_lt (s : BloomFilter) (value : List Nat)
    (hlen : s.v.length = s.M) (hM : s.M = (s.m + 63) / 64) (hm : 1 ≤ s.m) :
    ∀ p ∈ Fingerprint s value, p / 64 < s.v.length := by
  intro p hp
  have hplt : p < s.m :=
    fingerprintLoop_lt s.k s.m (fnv64 value) (fnv64 value) 0 hm p hp
  rw [hlen, hM]
  omega

/-! ### Claim theorems -/

/-- Claim C1: for every well-formed filter (bits array of length
M = ceil(m / 64), m at least 1, k at least 1) and every value, after
Add(value) and any further Add calls (the calls made before are
absorbed in the arbitrary starting filter), Check(value) is true: the
filter admits no false negatives. -/
theorem no_false_negatives (s : BloomFilter) (value : List Nat)
    (others : List (List Nat))
    (hlen : s.v.length = s.M) (hM : s.M = (s.m + 63) / 64)
    (hm : 1 ≤ s.m) (_hk : 1 ≤ s.k) :
    Check (others.foldl Add (Add s value)) value = true := by
  have hin := Fingerprint_div_lt s value hlen hM hm
  have hcov : bitsCover (others.foldl Add (Add s value)).v (Fingerprint s value) :=
    foldl_Add_cover others (Fingerprint s value) (Add s value) (Add_covers s value hin)
  apply Check_of_cover
  rw [Fingerprint_eq_of_dims (others.foldl Add (Add s value)) s value
    ((foldl_Add_m others (Add s value)).trans (Add_m s value))
    ((foldl_Add_k others (Add s value)).trans (Add_k s value))]
  exact hcov

theorem no_false_negatives_witness :
    Check (List.foldl Add (Add sampleFilter [5]) [[1], [2]]) [5] = true :=
  no_false_negatives sampleFilter [5] [[1], [2]] (by decide) (by decide)
    (by decide) (by decide)

/-- Claim C5: Fingerprint computes the FNV-1 64-bit hash of the value
and then the spec recurrence (two accumulators seeded with the hash; in
round i the first grows by i times the second modulo 2 ^ 64, the second
copies the first, and the first modulo m is emitted); it emits exactly k
positions, all below m.  As a Lean function it is deterministic, total
and side-effect free by construction. -/
theorem fingerprint_recurrence (s : BloomFilter) (value : List Nat)
    (hm : 1 ≤ s.m) :
    Fingerprint s value = specFingerprint s.m s.k (fnv64 value) ∧
    (Fingerprint s value).length = s.k ∧
    ∀ p ∈ Fingerprint s value, p < s.m := by
  refine ⟨?_, ?_, ?_⟩
  · exact fingerprintLoop_eq_spec s.k s.m (fnv64 value) (fnv64 value) 0
  · exact fingerprintLoop_length s.k s.m (fnv64 value) (fnv64 value) 0
  · exact fingerprintLoop_lt s.k s.m (fnv64 value) (fnv64 value) 0 hm

theorem fingerprint_recurrence_witness :
    Fingerprint sampleFilter [98, 97, 114] =
      specFingerprint sampleFilter.m sampleFilter.k (fnv64 [98, 97, 114]) :=
  (fingerprint_recurrence sampleFilter [98, 97, 114] (by decide)).1

/-- Claim C10: Add never clears a bit, so a value checking true keeps
checking true after further Add calls, and adding the same value twice
in a row changes nothing the second time (same bit array and same N). -/
theorem add_monotone_idempotent (s : BloomFilter) (v w : List Nat)
    (hlen : s.v.length = s.M) (hM : s.M = (s.m + 63) / 64)
    (hm : 1 ≤ s.m) (_hk : 1 ≤ s.k) :
    (∀ j t, ((s.v.getD j 0).testBit t = true) →
      (((Add s w).v.getD j 0).testBit t = true)) ∧
    (Check s v = true → Check (Add s w) v = true) ∧
    Add (Add s v) v = Add s v := by
  refine ⟨?_, ?_, ?_⟩
  · intro j t h
    show (((addLoop s.v (Fingerprint s w) false).1).getD j 0).testBit t = true
    exact addLoop_testBit_mono _ _ _ _ _ h
  · intro h
    have hcov : bitsCover s.v (Fingerprint s v) :=
      (CheckFingerprint_iff s _).mp h
    apply Check_of_cover
    rw [Fingerprint_Add]
    exact Add_preserves_cover s w _ hcov
  · have hin := Fingerprint_div_lt s v hlen hM hm
    have hcov : bitsCover (Add s v).v (Fingerprint s v) := Add_covers s v hin
    have hr : addLoop (Add s v).v (Fingerprint (Add s v) v) false = ((Add s v).v, false) := by
      rw [Fingerprint_Add]
      exact addLoop_of_all_set _ _ _ hcov
    show { Add s v with
            v := (addLoop (Add s v).v (Fingerprint (Add s v) v) false).1,
            N := if (addLoop (Add s v).v (Fingerprint (Add s v) v) false).2 then
                   ((Add s v).N + 1) % 2 ^ 64
                 else (Add s v).N } = Add s v
    rw [hr]
    rfl

theorem add_monotone_idempotent_witness :
    Add (Add sampleFilter [5]) [5] = Add sampleFilter [5] :=
  (add_monotone_idempotent sampleFilter [5] [9] (by decide) (by decide)
    (by decide) (by decide)).2.2

theorem take_eight_put (x : Nat) (rest : List Nat) :
    (putUint64LE x ++ rest).take 8 = putUint64LE x := by
  have := List.take_left (putUint64LE x) rest
  simp only [putUint64LE, List.length_cons, List.length_nil] at this
  exact this

/-- Claim C3: for dimension-compatible filters, Join merges the bit
arrays word-wise unconditionally; when the uint64 element counts would
overflow it returns the CountOverflow error with the bits already merged
and N unchanged, and otherwise returns no error with N the sum. -/
theorem join_overflow (a b : BloomFilter)
    (hn : a.n = b.n) (hp : float64Eq a.p b.p = true) (hk : a.k = b.k)
    (hm : a.m = b.m) (hMM : a.M = b.M)
    (ha : a.v.length = a.M) (hb : b.v.length = b.M)
    (hNa : a.N < 2 ^ 64) (hNb : b.N < 2 ^ 64) :
    (2 ^ 64 ≤ a.N + b.N →
      Join a b = ({ a with v := List.zipWith (· ||| ·) a.v b.v },
        some JoinError.countOverflow)) ∧
    (a.N + b.N < 2 ^ 64 →
      Join a b = ({ a with v := List.zipWith (· ||| ·) a.v b.v, N := a.N + b.N },
        none)) := by
  have hvlen : a.v.length = b.v.length := by rw [ha, hb, hMM]
  have hloop : joinWordsLoop b.v a.v 0 a.M = List.zipWith (· ||| ·) a.v b.v := by
    rw [← ha]
    exact joinWordsLoop_eq_zipWith a.v b.v hvlen
  constructor
  · intro hov
    have hmod : (a.N + b.N) % 2 ^ 64 < a.N := by omega
    unfold Join
    rw [if_neg (by simp [hn]), if_neg (by simp [hp]), if_neg (by simp [hk]),
        if_neg (by simp [hm]), if_neg (by simp [hMM])]
    show (if (a.N + b.N) % 2 ^ 64 < a.N then
            ({ a with v := joinWordsLoop b.v a.v 0 a.M }, some JoinError.countOverflow)
          else
            ({ a with v := joinWordsLoop b.v a.v 0 a.M, N := (a.N + b.N) % 2 ^ 64 },
              none)) = _
    rw [if_pos hmod, hloop]
  · intro hlt
    have hmod : ¬ (a.N + b.N) % 2 ^ 64 < a.N := by
      rw [Nat.mod_eq_of_lt hlt]
      omega
    unfold Join
    rw [if_neg (by simp [hn]), if_neg (by simp [hp]), if_neg (by simp [hk]),
        if_neg (by simp [hm]), if_neg (by simp [hMM])]
    show (if (a.N + b.N) % 2 ^ 64 < a.N then
            ({ a with v := joinWordsLoop b.v a.v 0 a.M }, some JoinError.countOverflow)
          else
            ({ a with v := joinWordsLoop b.v a.v 0 a.M, N := (a.N + b.N) % 2 ^ 64 },
              none)) = _
    rw [if_neg hmod, hloop, Nat.mod_eq_of_lt hlt]

theorem join_overflow_witness :
    Join sampleFilterNearFull sampleFilterOne =
      ({ sampleFilterNearFull with
          v := List.zipWith (· ||| ·) sampleFilterNearFull.v sampleFilterOne.v },
        some JoinError.countOverflow) :=
  (join_overflow sampleFilterNearFull sampleFilterOne (by decide) (by decide)
    (by decide) (by decide) (by decide) (by decide) (by decide) (by decide)
    (by decide)).1 (by decide)

/-- Claim C4: when any of the five dimension fields n, p, k, m, M
differs, Join returns, before any mutation, a dimension-mismatch error
naming a differing field with both its values, and the receiver is
returned completely unmodified. -/
theorem join_dimension_mismatch (a b : BloomFilter)
    (h : a.n ≠ b.n ∨ float64Eq a.p b.p = false ∨ a.k ≠ b.k ∨ a.m ≠ b.m ∨ a.M ≠ b.M) :
    (Join a b).1 = a ∧
    ∃ fld x y, (Join a b).2 = some (JoinError.dimensionMismatch fld x y) ∧
      ((fld = "n" ∧ x = a.n ∧ y = b.n ∧ x ≠ y) ∨
       (fld = "p" ∧ x = a.p ∧ y = b.p ∧ float64Eq x y = false) ∨
       (fld = "k" ∧ x = a.k ∧ y = b.k ∧ x ≠ y) ∨
       (fld = "m" ∧ x = a.m ∧ y = b.m ∧ x ≠ y) ∨
       (fld = "M" ∧ x = a.M ∧ y = b.M ∧ x ≠ y)) := by
  unfold Join
  by_cases h1 : a.n ≠ b.n
  · rw [if_pos h1]
    exact ⟨rfl, "n", a.n, b.n, rfl, Or.inl ⟨rfl, rfl, rfl, h1⟩⟩
  · rw [if_neg h1]
    by_cases h2 : ¬ float64Eq a.p b.p
    · rw [if_pos h2]
      refine ⟨rfl, "p", a.p, b.p, rfl, Or.inr (Or.inl ⟨rfl, rfl, rfl, ?_⟩)⟩
      cases hfe : float64Eq a.p b.p with
      | false => rfl
      | true => exact absurd hfe h2
    · rw [if_neg h2]
      by_cases h3 : a.k ≠ b.k
      · rw [if_pos h3]
        exact ⟨rfl, "k", a.k, b.k, rfl, Or.inr (Or.inr (Or.inl ⟨rfl, rfl, rfl, h3⟩))⟩
      · rw [if_neg h3]
        by_cases h4 : a.m ≠ b.m
        · rw [if_pos h4]
          exact ⟨rfl, "m", a.m, b.m, rfl,
            Or.inr (Or.inr (Or.inr (Or.inl ⟨rfl, rfl, rfl, h4⟩)))⟩
        · rw [if_neg h4]
          by_cases h5 : a.M ≠ b.M
          · rw [if_pos h5]
            exact ⟨rfl, "M", a.M, b.M, rfl,
              Or.inr (Or.inr (Or.inr (Or.inr ⟨rfl, rfl, rfl, h5⟩)))⟩
          · exfalso
            rcases h with h | h | h | h | h
            · exact h1 h
            · rw [not_not.mp h2] at h
              simp at h
            · exact h3 h
            · exact h4 h
            · exact h5 h

theorem join_dimension_mismatch_witness :
    (Join sampleFilter sampleFilterOtherN).1 = sampleFilter :=
  (join_dimension_mismatch sampleFilter sampleFilterOtherN (Or.inl (by decide))).1

theorem ReadFilter_cons (x : Nat) (rest : List Nat) (hx : x < 2 ^ 64) :
    ReadFilter (putUint64LE x ++ rest) =
      if x &&& 0xFF ≠ 1 then .error .formatError
      else
        match readBody rest with
        | none => .error .ioError
        | some f => .ok f := by
  unfold ReadFilter
  rw [readUint64_put x rest hx]

/-- Claim C2: writing a well-formed filter (bits array of length
M = ceil(m / 64), uint64 fields in range, m small enough that the float
ceiling of Read is exact) and reading the produced bytes back yields the
identical filter: same n, p, k, m, M, N, bit words and attached data. -/
theorem write_read_roundtrip (f : BloomFilter)
    (hlen : f.v.length = f.M) (hMC : f.M = (f.m + 63) / 64) (hm53 : f.m < 2 ^ 53)
    (hn : f.n < 2 ^ 64) (hp : f.p < 2 ^ 64) (hk : f.k < 2 ^ 64) (hN : f.N < 2 ^ 64)
    (hv : ∀ w ∈ f.v, w < 2 ^ 64) :
    ReadFilter (WriteBytes f) = .ok f := by
  obtain ⟨v, n, p, k, m, N, M, Data⟩ := f
  simp only at hlen hMC hm53 hn hp hk hN hv
  have hm64 : m < 2 ^ 64 := by omega
  have hwf : wordsFrom v 0 M = v := by
    rw [← hlen]
    exact wordsFrom_self v
  have hbody : readBody (putUint64LE n ++ (putUint64LE p ++ (putUint64LE k ++
      (putUint64LE m ++ (putUint64LE N ++ (writeWordsBytes v 0 M ++ Data)))))) =
      some ⟨v, n, p, k, m, N, M, Data⟩ := by
    unfold readBody
    rw [readUint64_put n _ hn]
    simp only [Option.bind_eq_bind, Option.some_bind]
    rw [readUint64_put p _ hp]
    simp only [Option.some_bind]
    rw [readUint64_put k _ hk]
    simp only [Option.some_bind]
    rw [readUint64_put m _ hm64]
    simp only [Option.some_bind]
    rw [readUint64_put N _ hN]
    simp only [Option.some_bind]
    rw [← hMC]
    rw [readWords_write M v hv 0 Data]
    simp only [Option.some_bind]
    rw [hwf]
  show ReadFilter (putUint64LE 1 ++ (putUint64LE n ++ (putUint64LE p ++
    (putUint64LE k ++ (putUint64LE m ++ (putUint64LE N ++
      (writeWordsBytes v 0 M ++ Data))))))) = _
  rw [ReadFilter_cons 1 _ (by norm_num)]
  rw [if_neg (by decide)]
  rw [hbody]

theorem write_read_roundtrip_witness :
    ReadFilter (WriteBytes sampleFilterData) = .ok sampleFilterData :=
  write_read_roundtrip sampleFilterData (by decide) (by decide) (by decide)
    (by decide) (by decide) (by decide) (by decide) (by decide)

/-- Claim C8: Read fails when the first 8-byte word cannot be fully
read; when it can, Read gets past the version check (that is, does not
return the format error) exactly when the low byte of the first
little-endian word equals 1; and the byte stream of Write always starts
with the 8-byte little-endian encoding of the constant 1. -/
theorem version_gate (input : List Nat) (f : BloomFilter) :
    (input.length < 8 → ReadFilter input = .error .ioError) ∧
    (8 ≤ input.length →
      (getUint64LE (input.take 8) &&& 0xFF = 1 ↔
        ReadFilter input ≠ .error .formatError)) ∧
    (WriteBytes f).take 8 = putUint64LE 1 := by
  refine ⟨?_, ?_, ?_⟩
  · intro h
    unfold ReadFilter
    rw [readUint64, if_neg (by omega)]
  · intro h8
    unfold ReadFilter
    rw [readUint64, if_pos h8]
    show getUint64LE (input.take 8) &&& 0xFF = 1 ↔
      (if getUint64LE (input.take 8) &&& 0xFF ≠ 1 then
         Except.error ReadError.formatError
       else
         match readBody (input.drop 8) with
         | none => Except.error ReadError.ioError
         | some g => Except.ok g) ≠ Except.error ReadError.formatError
    constructor
    · intro h1
      rw [if_neg (by simp [h1])]
      cases readBody (input.drop 8) with
      | none => simp
      | some g => simp
    · intro hne
      by_contra h1
      rw [if_pos h1] at hne
      exact hne rfl
  · show (putUint64LE 1 ++ (putUint64LE f.n ++ (putUint64LE f.p ++ (putUint64LE f.k ++
      (putUint64LE f.m ++ (putUint64LE f.N ++
        (writeWordsBytes f.v 0 f.M ++ f.Data))))))).take 8 = putUint64LE 1
    exact take_eight_put 1 _

theorem version_gate_witness :
    ReadFilter [] = Except.error ReadError.ioError :=
  (version_gate [] sampleFilter).1 (by decide)

/-- Claim C7 as stated is false: Write ignores the results of the six
header writes (and of the attached-data write).  Here the very first
sink call, the version word, reports zero bytes written and an error,
yet Write returns no error. -/
theorem write_error_ignored_cex :
    (failFirstSink 0).1 = 0 ∧ (failFirstSink 0).2 = true ∧
    WriteResult sampleFilter failFirstSink = none := by
  decide

/-- Claim C7 amended: Write returns an error exactly when one of the M
bit-array word writes is short (fewer than the 8 requested bytes) or
reports an error; the version-word, header-field and attached-data
writes are never checked. -/
theorem write_error_bit_words_only (s : BloomFilter) (resp : Nat → Nat × Bool) :
    WriteResult s resp = none ↔
      ∀ i < s.M, (resp (6 + i)).1 = 8 ∧ (resp (6 + i)).2 = false := by
  have hiff := writeWordsWithSink_none_iff resp s.M 6
  have heq : WriteResult s resp = none ↔ writeWordsWithSink resp 6 s.M = none := by
    unfold WriteResult
    cases h : writeWordsWithSink resp 6 s.M with
    | some e => simp [h]
    | none => simp [h]
  exact heq.trans hiff

theorem write_error_bit_words_only_witness :
    WriteResult sampleFilter perfectSink = none :=
  (write_error_bit_words_only sampleFilter perfectSink).mpr (by decide)

end Bloom
